import Mathlib

/-!
Verification of the rust-kms core against its specification.

The development shallowly embeds the code of `rust-kms-local`:

* `Store` models `std::collections::BTreeMap<u64, KeyType>` as an association
  list strictly sorted by key (the ordering a B-tree map maintains by
  construction; `Store.Sorted` states it).
* `Local` models `rust_kms_local::local::Local<KeyType>`: the counter plus the
  versioned mapping.  The `RwLock`/`Mutex` wrappers only guard concurrent
  access and poisoning; the success path of every operation is the pure state
  transformation modelled here.  `u64` values are modelled as `Nat`; the
  claims under study never drive the counter anywhere near the `2^64` wrap.
* `Crypto` models `rust_kms_local::crypto`.  The XChaCha20Poly1305 cipher of
  the external `chacha20poly1305` crate is not code of this repository; it is
  passed to the embedded functions as explicit `enc`/`dec` parameters and the
  properties the spec attributes to it (round-trip, ciphertext length, tag
  rejection) appear as hypotheses of the theorems that need them.  The random
  nonce drawn by `make_nonce` is likewise passed in as a parameter.  A `none`
  result of `decode_data`/`decrypt_data` models a Rust panic (the
  `Vec::with_capacity(data.len() - nonce.len())` underflow), while the
  `Except` layer models the `Result` the functions return.
* The persistence adapters (`Binary`, `Json`, `Encrypted` in `fs/`) are
  modelled with the backing file abstracted to the byte string
  written/read back and the bincode / serde_json codecs abstracted to
  `ser`/`de` parameters.
-/

namespace RustKms

/-! ## The mapping: `BTreeMap<u64, K>` as a strictly sorted association list -/

namespace Store

/-- Keys of an association list. -/
def keys {K : Type} (s : List (Nat × K)) : List Nat :=
  s.map Prod.fst

/-- The B-tree map ordering invariant: keys strictly increase. -/
def Sorted {K : Type} (s : List (Nat × K)) : Prop :=
  (keys s).Pairwise (· < ·)

instance {K : Type} (s : List (Nat × K)) : Decidable (Sorted s) := by
  unfold Sorted; infer_instance

/-- `BTreeMap::insert`: insert at the ordered position, replacing an existing
entry with the same key. -/
def insert {K : Type} (s : List (Nat × K)) (k : Nat) (v : K) : List (Nat × K) :=
  match s with
  | [] => [(k, v)]
  | (k', v') :: rest =>
    if k < k' then (k, v) :: (k', v') :: rest
    else if k = k' then (k, v) :: rest
    else (k', v') :: insert rest k v

/-- `BTreeMap::get`: first entry with the given key. -/
def find {K : Type} (s : List (Nat × K)) (k : Nat) : Option K :=
  match s with
  | [] => none
  | (k', v') :: rest => if k = k' then some v' else find rest k

/-- `BTreeMap::remove`: delete the entry with the given key, returning the
removed value (if any) together with the remaining map. -/
def removeKey {K : Type} (s : List (Nat × K)) (k : Nat) :
    Option K × List (Nat × K) :=
  match s with
  | [] => (none, [])
  | (k', v') :: rest =>
    if k = k' then (some v', rest)
    else
      let r := removeKey rest k
      (r.1, (k', v') :: r.2)

/-- Rebuild a map from a sequence of entries by repeated insertion — exactly
how serde deserializes a `BTreeMap`, inserting each decoded `(key, value)`
pair in turn. -/
def ofEntries {K : Type} (entries : List (Nat × K)) : List (Nat × K) :=
  entries.foldl (fun s kv => insert s kv.1 kv.2) []

end Store

/-! ## The versioned store `Local<KeyType>` -/

/-- `Local<KeyType>` (local.rs lines 28-32): a counter and the versioned
mapping.  The Rust struct wraps the two fields in a `Mutex`/`RwLock`; the
locks only serialize access, so the state is the pair itself. -/
structure Local (K : Type) where
  count : Nat
  store : List (Nat × K)
deriving DecidableEq

namespace Local

variable {K : Type}

/-- `Local::new` (local.rs lines 35-40): empty mapping, counter 0. -/
def new : Local K :=
  ⟨0, []⟩

/-- `Local::update` (local.rs lines 52-65): read the counter, compute
`new_version = counter + 1`, insert the record at `new_version`, commit
`new_version` to the counter. -/
def update (l : Local K) (key : K) : Local K :=
  ⟨l.count + 1, Store.insert l.store (l.count + 1) key⟩

/-- `Local::drop` (local.rs lines 67-71): remove the entry at `version`,
returning the removed record; the counter is untouched. -/
def drop (l : Local K) (version : Nat) : Option K × Local K :=
  let r := Store.removeKey l.store version
  (r.1, ⟨l.count, r.2⟩)

/-- `Local::get` (local.rs lines 78-86): clone of the record at `version`. -/
def get (l : Local K) (version : Nat) : Option K :=
  Store.find l.store version

/-- `Local::get_version_key` (local.rs lines 88-96). -/
def get_version_key (l : Local K) (version : Nat) : Option (Nat × K) :=
  (Store.find l.store version).map fun v => (version, v)

/-- `Local::latest` (local.rs lines 98-106): `BTreeMap::last_key_value`,
i.e. the entry with the maximum present key, cloned. -/
def latest (l : Local K) : Option K :=
  (l.store.getLast?).map Prod.snd

/-- `Local::latest_version_key` (local.rs lines 108-116). -/
def latest_version_key (l : Local K) : Option (Nat × K) :=
  l.store.getLast?

/-- A sequence of `update` calls. -/
def updateAll (l : Local K) (ks : List K) : Local K :=
  ks.foldl update l

/-- The stable wire-format snapshot written by `Serialize for Local`
(local.rs lines 220-233): the `count` field followed by the `store` field. -/
def snapshot (l : Local K) : Nat × List (Nat × K) :=
  (l.count, l.store)

/-- `Deserialize for Local` (local.rs lines 235-347, `visit_seq` lines
294-304): read a `(count, store)` pair and construct the struct from it
directly — no validation relates the mapping's keys to `count`.  The store
itself is rebuilt by serde's `BTreeMap` deserializer, which inserts each
decoded entry. -/
def deserialize (c : Nat) (entries : List (Nat × K)) : Local K :=
  ⟨c, Store.ofEntries entries⟩

end Local

/-- A store operation: the two mutators of `Local`. -/
inductive Op (K : Type) where
  | update (key : K)
  | drop (version : Nat)

namespace Local

variable {K : Type}

/-- Apply one mutating operation. -/
def applyOp (l : Local K) : Op K → Local K
  | .update k => l.update k
  | .drop v => (l.drop v).2

/-- Run a sequence of mutating operations from a given state. -/
def runOps (l : Local K) (ops : List (Op K)) : Local K :=
  ops.foldl applyOp l

/-- The versions assigned by the `update` calls of a run, in order.
`Local::update` assigns `counter + 1` (local.rs line 54); `Local::drop`
assigns nothing. -/
def assignedVersions : Local K → List (Op K) → List Nat
  | _, [] => []
  | l, .update k :: rest => (l.count + 1) :: assignedVersions (l.update k) rest
  | l, .drop v :: rest => assignedVersions ((l.drop v).2) rest

end Local

/-! ## The crypto layer (crypto.rs) -/

namespace Crypto

def KEY_LEN : Nat := 32
def NONCE_LEN : Nat := 24

/-- Byte strings (`Vec<u8>` / `[u8; N]`); byte values as `Nat`. -/
abbrev Bytes := List Nat

/-- `crypto::Error` (crypto.rs lines 15-20). -/
inductive Error where
  | InvalidEncoding
  | ChaCha
  | Rand
deriving DecidableEq

/-- `crypto::empty_key` (crypto.rs lines 54-57). -/
def empty_key : Bytes :=
  List.replicate KEY_LEN 0

/-- The `for i in 0..nonce.len()` loop of `decode_data` (crypto.rs lines
72-78): take `n` bytes off the iterator into the nonce, keeping the rest;
`none` models the `return Err(Error::InvalidEncoding)` branch taken when the
iterator is exhausted early. -/
def readNonce : Nat → Bytes → Option (Bytes × Bytes)
  | 0, rest => some ([], rest)
  | _ + 1, [] => none
  | n + 1, b :: rest => (readNonce n rest).map fun p => (b :: p.1, p.2)

/-- `decode_data` (crypto.rs lines 67-85).  Its first statement allocates
`Vec::with_capacity(data.len() - nonce.len())`; the `usize` subtraction
underflows whenever `data.len() < NONCE_LEN`, which panics (debug) or makes
`with_capacity` fail on an impossible capacity (release) — modelled as the
outer `none`.  Only afterwards does the nonce loop run, so its
`InvalidEncoding` branch is unreachable; the remaining bytes are collected as
the encrypted payload. -/
def decode_data (data : Bytes) : Option (Except Error (Bytes × Bytes)) :=
  if data.length < NONCE_LEN then
    none
  else
    match readNonce NONCE_LEN data with
    | none => some (.error .InvalidEncoding)
    | some p => some (.ok p)

/-- `encode_data` (crypto.rs lines 87-99): the nonce bytes followed by the
payload bytes. -/
def encode_data (nonce : Bytes) (data : Bytes) : Except Error Bytes :=
  .ok (nonce ++ data)

/-- `decrypt_data` (crypto.rs lines 101-108): split the blob via
`decode_data`, then run the AEAD open operation `dec` of the external
XChaCha20Poly1305 cipher on the remainder; a cipher failure becomes
`Error::ChaCha` (the `From<ChaChaError>` impl, crypto.rs lines 48-52) and no
plaintext is returned. -/
def decrypt_data (dec : Bytes → Bytes → Bytes → Option Bytes) (key : Bytes)
    (data : Bytes) : Option (Except Error Bytes) :=
  match decode_data data with
  | none => none
  | some (.error e) => some (.error e)
  | some (.ok (nonce, encrypted)) =>
    match dec key nonce encrypted with
    | none => some (.error .ChaCha)
    | some plain => some (.ok plain)

/-- `encrypt_data` (crypto.rs lines 110-118): seal `data` with the AEAD
operation `enc` of the external cipher under the freshly drawn random
`nonce` (the successful result of `make_nonce`), then prepend the nonce via
`encode_data`. -/
def encrypt_data (enc : Bytes → Bytes → Bytes → Bytes) (key : Bytes)
    (nonce : Bytes) (data : Bytes) : Except Error Bytes :=
  encode_data nonce (enc key nonce data)

/-- Flip bit `i % 8` of byte `i / 8` of a byte string (a single-bit
corruption of the blob). -/
def flipBit (bs : Bytes) (i : Nat) : Bytes :=
  bs.set (i / 8) (bs.getD (i / 8) 0 ^^^ 2 ^ (i % 8))

/-- The plaintext of the crypto test (crypto.rs line 126):
`b"i am test data to encrypt and decrypt"`. -/
def testData : Bytes :=
  [105, 32, 97, 109, 32, 116, 101, 115, 116, 32, 100, 97, 116, 97, 32, 116,
   111, 32, 101, 110, 99, 114, 121, 112, 116, 32, 97, 110, 100, 32, 100, 101,
   99, 114, 121, 112, 116]

end Crypto

/-! ## The persistence adapters (fs/binary.rs, fs/json.rs, fs/encrypted.rs)

The backing file is abstracted to the byte string: `save` produces the bytes
written to the (truncated) file, `load` consumes the bytes read back.  The
bincode and serde_json codecs are abstracted to `ser`/`de` parameters
operating on the `Local` snapshot. -/

namespace Fs

namespace Binary

/-- `Binary::save` (fs/binary.rs lines 86-101): bincode-serialize the wrapped
store and write the bytes. -/
def save {K : Type} (ser : Nat × List (Nat × K) → Crypto.Bytes)
    (l : Local K) : Crypto.Bytes :=
  ser l.snapshot

/-- `Binary::load` (fs/binary.rs lines 66-84): bincode-deserialize the file
bytes into a store. -/
def load {K : Type} (de : Crypto.Bytes → Option (Nat × List (Nat × K)))
    (bytes : Crypto.Bytes) : Option (Local K) :=
  (de bytes).map fun snap => Local.deserialize snap.1 snap.2

end Binary

namespace Json

/-- `Json::save` (fs/json.rs lines 89-106): serde_json-serialize the wrapped
store and write the bytes. -/
def save {K : Type} (ser : Nat × List (Nat × K) → Crypto.Bytes)
    (l : Local K) : Crypto.Bytes :=
  ser l.snapshot

/-- `Json::load` (fs/json.rs lines 66-87): serde_json-deserialize the file
bytes into a store. -/
def load {K : Type} (de : Crypto.Bytes → Option (Nat × List (Nat × K)))
    (bytes : Crypto.Bytes) : Option (Local K) :=
  (de bytes).map fun snap => Local.deserialize snap.1 snap.2

end Json

namespace Encrypted

/-- `Encrypted::save` (fs/encrypted.rs lines 92-113): bincode-serialize the
wrapped store, encrypt the bytes, write the blob. -/
def save {K : Type} (ser : Nat × List (Nat × K) → Crypto.Bytes)
    (enc : Crypto.Bytes → Crypto.Bytes → Crypto.Bytes → Crypto.Bytes)
    (key nonce : Crypto.Bytes) (l : Local K) : Except Crypto.Error Crypto.Bytes :=
  Crypto.encrypt_data enc key nonce (ser l.snapshot)

/-- `Encrypted::load` (fs/encrypted.rs lines 62-90): read the blob, decrypt
it, bincode-deserialize the plaintext into a store.  Failures of any stage
(including the decode panic) collapse to `none`. -/
def load {K : Type} (de : Crypto.Bytes → Option (Nat × List (Nat × K)))
    (dec : Crypto.Bytes → Crypto.Bytes → Crypto.Bytes → Option Crypto.Bytes)
    (key : Crypto.Bytes) (bytes : Crypto.Bytes) : Option (Local K) :=
  match Crypto.decrypt_data dec key bytes with
  | some (.ok plain) => (de plain).map fun snap => Local.deserialize snap.1 snap.2
  | _ => none

end Encrypted

end Fs

/-! ## Concrete instances used by witnesses

A toy AEAD satisfying, on the concrete inputs of the witnesses, the
properties the spec attributes to XChaCha20Poly1305: the sealed output is
the plaintext followed by a 16-byte tag derived from key, nonce and
plaintext; opening checks the tag. -/

def toyTag (key nonce body : Crypto.Bytes) : Crypto.Bytes :=
  List.replicate 16 ((key.sum + nonce.sum + body.sum) % 256)

def toyEnc (key nonce p : Crypto.Bytes) : Crypto.Bytes :=
  p ++ toyTag key nonce p

def toyDec (key nonce c : Crypto.Bytes) : Option Crypto.Bytes :=
  if c.length < 16 then none
  else
    let body := c.take (c.length - 16)
    if c.drop (c.length - 16) = toyTag key nonce body then some body else none

def zeroNonce : Crypto.Bytes :=
  List.replicate Crypto.NONCE_LEN 0

/-- The store of the persistence scenario: four `update` calls with record
values 10, 1, 2, 4 on a fresh store. -/
def store4 : Local Nat :=
  Local.updateAll Local.new [10, 1, 2, 4]

/-- A toy codec pair for witnesses: correct on the snapshot of `store4`. -/
def toySer (_ : Nat × List (Nat × Nat)) : Crypto.Bytes :=
  []

def toyDe (_ : Crypto.Bytes) : Option (Nat × List (Nat × Nat)) :=
  some (4, [(1, 10), (2, 1), (3, 2), (4, 4)])

/-! ## Lemmas about the sorted association list -/

namespace Store

theorem keys_insert_subset {K : Type} (s : List (Nat × K)) (k : Nat) (v : K) :
    ∀ a ∈ keys (insert s k v), a = k ∨ a ∈ keys s := by
  induction s with
  | nil =>
    intro a ha
    simp only [insert, keys, List.map_cons, List.map_nil,
      List.mem_singleton] at ha
    exact Or.inl ha
  | cons hd tl ih =>
    obtain ⟨k', v'⟩ := hd
    intro a ha
    unfold insert at ha
    by_cases h1 : k < k'
    · rw [if_pos h1] at ha
      simp only [keys, List.map_cons, List.mem_cons] at ha ⊢
      tauto
    · rw [if_neg h1] at ha
      by_cases h2 : k = k'
      · rw [if_pos h2] at ha
        simp only [keys, List.map_cons, List.mem_cons] at ha ⊢
        tauto
      · rw [if_neg h2] at ha
        simp only [keys, List.map_cons, List.mem_cons] at ha ⊢
        rcases ha with rfl | ha
        · exact Or.inr (Or.inl rfl)
        · rcases ih a ha with h | h
          · exact Or.inl h
          · exact Or.inr (Or.inr h)

theorem sorted_cons_iff {K : Type} {k : Nat} {v : K} {tl : List (Nat × K)} :
    Sorted ((k, v) :: tl) ↔ (∀ a ∈ keys tl, k < a) ∧ Sorted tl := by
  unfold Sorted keys
  simp [List.pairwise_cons]

theorem insert_sorted {K : Type} {s : List (Nat × K)} (k : Nat) (v : K)
    (h : Sorted s) : Sorted (insert s k v) := by
  induction s with
  | nil =>
    unfold Sorted keys insert
    simp
  | cons hd tl ih =>
    obtain ⟨k', v'⟩ := hd
    rw [sorted_cons_iff] at h
    obtain ⟨hlt, htl⟩ := h
    unfold insert
    by_cases h1 : k < k'
    · rw [if_pos h1, sorted_cons_iff, sorted_cons_iff]
      refine ⟨?_, hlt, htl⟩
      intro a ha
      simp only [keys, List.map_cons, List.mem_cons] at ha
      rcases ha with rfl | ha
      · exact h1
      · exact h1.trans (hlt a ha)
    · rw [if_neg h1]
      by_cases h2 : k = k'
      · rw [if_pos h2, sorted_cons_iff]
        subst h2
        exact ⟨hlt, htl⟩
      · rw [if_neg h2, sorted_cons_iff]
        refine ⟨?_, ih htl⟩
        intro a ha
        rcases keys_insert_subset tl k v a ha with rfl | ha'
        · omega
        · exact hlt a ha'

theorem removeKey_sublist {K : Type} (s : List (Nat × K)) (k : Nat) :
    (removeKey s k).2.Sublist s := by
  induction s with
  | nil => simp [removeKey]
  | cons hd tl ih =>
    obtain ⟨k', v'⟩ := hd
    by_cases h : k = k'
    · simp [removeKey, h]
    · simpa [removeKey, h] using ih.cons₂ (k', v')

theorem removeKey_sorted {K : Type} {s : List (Nat × K)} (k : Nat)
    (h : Sorted s) : Sorted (removeKey s k).2 :=
  List.Pairwise.sublist ((removeKey_sublist s k).map Prod.fst) h

theorem removeKey_fst {K : Type} (s : List (Nat × K)) (k : Nat) :
    (removeKey s k).1 = find s k := by
  induction s with
  | nil => simp [removeKey, find]
  | cons hd tl ih =>
    obtain ⟨k', v'⟩ := hd
    by_cases h : k = k'
    · simp [removeKey, find, h]
    · simp [removeKey, find, h, ih]

theorem find_eq_none_of_forall_lt {K : Type} {s : List (Nat × K)} {k : Nat}
    (h : ∀ a ∈ keys s, k < a ∨ a < k) : find s k = none := by
  induction s with
  | nil => simp [find]
  | cons hd tl ih =>
    obtain ⟨k', v'⟩ := hd
    have hk' : k ≠ k' := by
      have := h k' (by simp [keys])
      omega
    simp only [find, hk', if_neg, ne_eq, not_false_eq_true]
    exact ih fun a ha => h a (by simp [keys] at ha ⊢; tauto)

theorem find_removeKey_self {K : Type} {s : List (Nat × K)} (k : Nat)
    (h : Sorted s) : find (removeKey s k).2 k = none := by
  induction s with
  | nil => simp [removeKey, find]
  | cons hd tl ih =>
    obtain ⟨k', v'⟩ := hd
    rw [sorted_cons_iff] at h
    obtain ⟨hlt, htl⟩ := h
    by_cases hk : k = k'
    · subst hk
      simp only [removeKey, if_pos rfl]
      exact find_eq_none_of_forall_lt fun a ha => Or.inl (hlt a ha)
    · simp only [removeKey, hk, if_neg, ne_eq, not_false_eq_true, find]
      exact ih htl

theorem find_removeKey_other {K : Type} (s : List (Nat × K)) (k w : Nat)
    (hw : w ≠ k) : find (removeKey s k).2 w = find s w := by
  induction s with
  | nil => simp [removeKey]
  | cons hd tl ih =>
    obtain ⟨k', v'⟩ := hd
    by_cases hk : k = k'
    · subst hk
      simp [removeKey, find, hw]
    · simp [removeKey, find, hk, ih]

theorem find_insert_self {K : Type} (s : List (Nat × K)) (k : Nat) (v : K) :
    find (insert s k v) k = some v := by
  induction s with
  | nil => simp [insert, find]
  | cons hd tl ih =>
    obtain ⟨k', v'⟩ := hd
    by_cases h1 : k < k'
    · simp [insert, h1, find]
    · by_cases h2 : k = k'
      · simp [insert, h1, h2, find]
      · simp [insert, find, h1, h2, ih]

theorem find_insert_other {K : Type} (s : List (Nat × K)) (k w : Nat) (v : K)
    (hw : w ≠ k) : find (insert s k v) w = find s w := by
  induction s with
  | nil => simp [insert, find, hw]
  | cons hd tl ih =>
    obtain ⟨k', v'⟩ := hd
    by_cases h1 : k < k'
    · simp [insert, h1, find, hw]
    · by_cases h2 : k = k'
      · subst h2
        simp [insert, h1, find, hw]
      · simp [insert, find, h1, h2, ih]

theorem insert_append_of_forall_lt {K : Type} {s : List (Nat × K)} {k : Nat}
    (v : K) (h : ∀ a ∈ keys s, a < k) : insert s k v = s ++ [(k, v)] := by
  induction s with
  | nil => simp [insert]
  | cons hd tl ih =>
    obtain ⟨k', v'⟩ := hd
    have hk' : k' < k := h k' (by simp [keys])
    have h1 : ¬ k < k' := by omega
    have h2 : k ≠ k' := by omega
    simp only [insert, h1, h2, if_neg, ne_eq, not_false_eq_true,
      List.cons_append, List.cons.injEq, true_and]
    exact ih fun a ha => h a (by simp [keys] at ha ⊢; tauto)

theorem find_mem_keys {K : Type} (s : List (Nat × K)) (k : Nat) (v : K)
    (h : find s k = some v) : k ∈ keys s := by
  induction s with
  | nil => simp [find] at h
  | cons hd tl ih =>
    obtain ⟨k', v'⟩ := hd
    by_cases hk : k = k'
    · subst hk
      simp [keys]
    · simp only [find, if_neg hk] at h
      simp only [keys, List.map_cons, List.mem_cons]
      exact Or.inr (ih h)

theorem getLast_max {K : Type} : ∀ (s : List (Nat × K)) (m : Nat) (val : K),
    Sorted s → s.getLast? = some (m, val) →
    find s m = some val ∧ ∀ a ∈ keys s, a ≤ m := by
  intro s
  induction s with
  | nil =>
    intro m val _ h
    simp at h
  | cons hd tl ih =>
    intro m val hs hl
    obtain ⟨k', v'⟩ := hd
    rw [sorted_cons_iff] at hs
    obtain ⟨hlt, htl⟩ := hs
    cases tl with
    | nil =>
      have hkv : (k', v') = (m, val) := by
        simpa using hl
      obtain ⟨rfl, rfl⟩ : k' = m ∧ v' = val :=
        ⟨congrArg Prod.fst hkv, congrArg Prod.snd hkv⟩
      refine ⟨by simp [find], ?_⟩
      intro a ha
      simp only [keys, List.map_cons, List.map_nil, List.mem_singleton] at ha
      omega
    | cons hd2 tl2 =>
      rw [List.getLast?_cons_cons] at hl
      obtain ⟨hfind, hmax⟩ := ih m val htl hl
      have hmem : m ∈ keys (hd2 :: tl2) := find_mem_keys _ m val hfind
      have hk'm : k' < m := hlt m hmem
      have hne : m ≠ k' := by omega
      refine ⟨?_, ?_⟩
      · simp only [find, if_neg hne]
        exact hfind
      · intro a ha
        have hkeq : keys ((k', v') :: hd2 :: tl2) = k' :: keys (hd2 :: tl2) :=
          rfl
        rw [hkeq] at ha
        rcases List.mem_cons.mp ha with rfl | ha
        · omega
        · exact hmax a ha

end Store

/-! ## Lemmas about `Local` runs -/

theorem updateAll_generalized {K : Type} (ks : List K) : ∀ (l : Local K),
    Store.keys l.store = List.range' 1 l.count →
    (Local.updateAll l ks).count = l.count + ks.length ∧
    Store.keys (Local.updateAll l ks).store =
      List.range' 1 (l.count + ks.length) := by
  induction ks with
  | nil =>
    intro l h
    exact ⟨by simp [Local.updateAll], by simpa [Local.updateAll] using h⟩
  | cons k ks ih =>
    intro l h
    have hlt : ∀ a ∈ Store.keys l.store, a < l.count + 1 := by
      intro a ha
      rw [h] at ha
      have := List.mem_range'_1.mp ha
      omega
    have hins : Store.insert l.store (l.count + 1) k =
        l.store ++ [(l.count + 1, k)] :=
      Store.insert_append_of_forall_lt k hlt
    have hkeys : Store.keys (l.update k).store =
        List.range' 1 ((l.update k).count) := by
      show Store.keys (Store.insert l.store (l.count + 1) k) = _
      rw [hins]
      unfold Store.keys at h ⊢
      rw [List.map_append]
      simp only [List.map_cons, List.map_nil]
      show List.map Prod.fst l.store ++ [l.count + 1] =
        List.range' 1 (l.count + 1)
      rw [List.range'_1_concat, Nat.add_comm 1 l.count, h]
    have hrun : Local.updateAll l (k :: ks) =
        Local.updateAll (l.update k) ks := rfl
    obtain ⟨h1, h2⟩ := ih (l.update k) hkeys
    rw [hrun]
    have hc : (l.update k).count = l.count + 1 := rfl
    constructor
    · rw [h1, hc]
      simp only [List.length_cons]
      omega
    · rw [h2, hc]
      have : l.count + 1 + ks.length = l.count + (k :: ks).length := by
        simp only [List.length_cons]
        omega
      rw [this]

theorem applyOp_keys_le {K : Type} (l : Local K) (op : Op K)
    (h : ∀ v ∈ Store.keys l.store, v ≤ l.count) :
    ∀ v ∈ Store.keys (l.applyOp op).store, v ≤ (l.applyOp op).count := by
  cases op with
  | update k =>
    intro v hv
    rcases Store.keys_insert_subset l.store (l.count + 1) k v hv with rfl | hv'
    · exact Nat.le_refl _
    · exact (h v hv').trans (Nat.le_succ _)
  | drop ver =>
    intro v hv
    have hsub : ((Store.removeKey l.store ver).2.map Prod.fst).Sublist
        (l.store.map Prod.fst) :=
      (Store.removeKey_sublist l.store ver).map Prod.fst
    exact h v (hsub.subset hv)

theorem runOps_keys_le {K : Type} (ops : List (Op K)) : ∀ (l : Local K),
    (∀ v ∈ Store.keys l.store, v ≤ l.count) →
    ∀ v ∈ Store.keys (l.runOps ops).store, v ≤ (l.runOps ops).count := by
  induction ops with
  | nil =>
    intro l h
    exact h
  | cons op ops ih =>
    intro l h
    exact ih (l.applyOp op) (applyOp_keys_le l op h)

theorem assignedVersions_gt {K : Type} (ops : List (Op K)) : ∀ (l : Local K),
    ∀ v ∈ l.assignedVersions ops, l.count < v := by
  induction ops with
  | nil =>
    intro l v hv
    simp [Local.assignedVersions] at hv
  | cons op ops ih =>
    intro l v hv
    cases op with
    | update k =>
      simp only [Local.assignedVersions, List.mem_cons] at hv
      rcases hv with rfl | hv
      · omega
      · have h1 := ih (l.update k) v hv
        have h2 : (l.update k).count = l.count + 1 := rfl
        omega
    | drop ver =>
      simp only [Local.assignedVersions] at hv
      have h1 := ih ((l.drop ver).2) v hv
      have h2 : ((l.drop ver).2).count = l.count := rfl
      omega

theorem assignedVersions_pairwise {K : Type} (ops : List (Op K)) :
    ∀ (l : Local K), (l.assignedVersions ops).Pairwise (· < ·) := by
  induction ops with
  | nil =>
    intro l
    simp [Local.assignedVersions]
  | cons op ops ih =>
    intro l
    cases op with
    | update k =>
      simp only [Local.assignedVersions]
      refine List.Pairwise.cons ?_ (ih (l.update k))
      intro v hv
      have h1 := assignedVersions_gt ops (l.update k) v hv
      have h2 : (l.update k).count = l.count + 1 := rfl
      omega
    | drop ver =>
      simpa only [Local.assignedVersions] using ih ((l.drop ver).2)

/-! ## Claims about the versioned store -/

/-- Claim C1: from a fresh store (`Local::new`, counter 0, empty mapping),
each `update` computes its version as the counter plus one, inserts there and
commits that counter; after any sequence of N successful updates the versions
present are exactly {1, ..., N} and `count()` returns N. -/
theorem claim_C1_update_sequence (K : Type) (ks : List K) :
    (∀ (l : Local K) (k : K),
        (l.update k).count = l.count + 1 ∧
        (l.update k).store = Store.insert l.store (l.count + 1) k) ∧
    (Local.updateAll (Local.new : Local K) ks).count = ks.length ∧
    Store.keys (Local.updateAll (Local.new : Local K) ks).store =
      List.range' 1 ks.length := by
  have h := updateAll_generalized ks (Local.new : Local K)
    (by simp [Local.new, Store.keys])
  refine ⟨fun l k => ⟨rfl, rfl⟩, ?_, ?_⟩
  · simpa [Local.new] using h.1
  · simpa [Local.new] using h.2

/-- Claim C2: in every store reachable from `Local::new` by successful
`update`/`drop` calls, every version present in the mapping is at most the
counter; no operation decreases the counter; and the versions assigned by
the updates of the run are pairwise distinct — an assigned version is never
assigned again, dropped or not. -/
theorem claim_C2_invariants (K : Type) (ops : List (Op K)) :
    (∀ v ∈ Store.keys ((Local.new : Local K).runOps ops).store,
        v ≤ ((Local.new : Local K).runOps ops).count) ∧
    (∀ (l : Local K) (k : K), l.count ≤ (l.update k).count) ∧
    (∀ (l : Local K) (ver : Nat), ((l.drop ver).2).count = l.count) ∧
    ((Local.new : Local K).assignedVersions ops).Nodup := by
  refine ⟨?_, fun l k => Nat.le_succ _, fun l ver => rfl, ?_⟩
  · refine runOps_keys_le ops Local.new ?_
    intro v hv
    simp [Local.new, Store.keys] at hv
  · exact (assignedVersions_pairwise ops Local.new).imp Nat.ne_of_lt

/-- Claim C3: `drop(v)` removes the entry at `v` and returns the record that
was there (or nothing), leaves the counter unchanged, and leaves every other
version's lookup untouched, so a subsequent `get(v)` finds nothing. -/
theorem claim_C3_drop_frame (K : Type) (l : Local K)
    (hs : Store.Sorted l.store) (v : Nat) :
    (l.drop v).1 = l.get v ∧
    ((l.drop v).2).count = l.count ∧
    ∀ w, ((l.drop v).2).get w = if w = v then none else l.get w := by
  refine ⟨Store.removeKey_fst l.store v, rfl, ?_⟩
  intro w
  by_cases hw : w = v
  · subst hw
    rw [if_pos rfl]
    exact Store.find_removeKey_self w hs
  · rw [if_neg hw]
    exact Store.find_removeKey_other l.store v w hw

/-- Witness for claim C3 at a concrete store. -/
theorem claim_C3_drop_frame_witness :
    Store.Sorted ((⟨2, [(1, 5), (2, 7)]⟩ : Local Nat)).store ∧
    ((⟨2, [(1, 5), (2, 7)]⟩ : Local Nat).drop 1).1 =
      (⟨2, [(1, 5), (2, 7)]⟩ : Local Nat).get 1 ∧
    (((⟨2, [(1, 5), (2, 7)]⟩ : Local Nat).drop 1).2).count = 2 ∧
    (((⟨2, [(1, 5), (2, 7)]⟩ : Local Nat).drop 1).2).get 2 =
      if 2 = 1 then none else (⟨2, [(1, 5), (2, 7)]⟩ : Local Nat).get 2 := by
  have h := claim_C3_drop_frame Nat ⟨2, [(1, 5), (2, 7)]⟩ (by decide) 1
  exact ⟨by decide, h.1, h.2.1, h.2.2 2⟩

/-- Claim C4: `latest()`/`latest_version_key()` return the entry at the
maximum version currently present (which may be below the counter), agreeing
with `get` of that version; on an empty mapping they return nothing. -/
theorem claim_C4_latest (K : Type) (l : Local K)
    (hs : Store.Sorted l.store) :
    (l.store = [] → l.latest = none ∧ l.latest_version_key = none) ∧
    (l.store ≠ [] → ∃ m val,
        l.latest_version_key = some (m, val) ∧
        l.latest = some val ∧
        l.get m = some val ∧
        ∀ a ∈ Store.keys l.store, a ≤ m) := by
  constructor
  · intro h
    unfold Local.latest Local.latest_version_key
    rw [h]
    simp
  · intro h
    obtain ⟨p, hp⟩ : ∃ p, l.store.getLast? = some p := by
      cases hgl : l.store.getLast? with
      | none => exact absurd (List.getLast?_eq_none_iff.mp hgl) h
      | some p => exact ⟨p, rfl⟩
    obtain ⟨m, val⟩ := p
    obtain ⟨hfind, hmax⟩ := Store.getLast_max l.store m val hs hp
    exact ⟨m, val, hp, by simp [Local.latest, hp], hfind, hmax⟩

/-- Witness for claim C4 at a concrete store whose maximum present version
(4) is below its counter (5). -/
theorem claim_C4_latest_witness :
    Store.Sorted ((⟨5, [(1, 3), (4, 9)]⟩ : Local Nat)).store ∧
    (⟨5, [(1, 3), (4, 9)]⟩ : Local Nat).store ≠ [] ∧
    ∃ m val,
      (⟨5, [(1, 3), (4, 9)]⟩ : Local Nat).latest_version_key = some (m, val) ∧
      (⟨5, [(1, 3), (4, 9)]⟩ : Local Nat).latest = some val ∧
      (⟨5, [(1, 3), (4, 9)]⟩ : Local Nat).get m = some val ∧
      ∀ a ∈ Store.keys (⟨5, [(1, 3), (4, 9)]⟩ : Local Nat).store, a ≤ m := by
  refine ⟨by decide, by decide, ?_⟩
  exact (claim_C4_latest Nat ⟨5, [(1, 3), (4, 9)]⟩ (by decide)).2 (by decide)

/-- Claim C10: deserialization accepts a snapshot whose mapping holds a key
strictly greater than its counter, and an `update` on the resulting store
inserts at counter + 1, silently replacing the record already at that
version. -/
theorem claim_C10_deserialize_unchecked :
    (Local.deserialize 0 [(1, 10)] : Local Nat).count = 0 ∧
    (∃ ver ∈ Store.keys (Local.deserialize 0 [(1, 10)] : Local Nat).store,
        (Local.deserialize 0 [(1, 10)] : Local Nat).count < ver) ∧
    (Local.deserialize 0 [(1, 10)] : Local Nat).get 1 = some 10 ∧
    ((Local.deserialize 0 [(1, 10)] : Local Nat).update 20).count = 1 ∧
    ((Local.deserialize 0 [(1, 10)] : Local Nat).update 20).store =
      [(1, 20)] := by
  decide

/-! ## Lemmas about the crypto layer -/

theorem readNonce_append (pre post : Crypto.Bytes) :
    Crypto.readNonce pre.length (pre ++ post) = some (pre, post) := by
  induction pre with
  | nil => rfl
  | cons b rest ih =>
    show (Crypto.readNonce rest.length (rest ++ post)).map
      (fun p => (b :: p.1, p.2)) = some (b :: rest, post)
    rw [ih]
    rfl

theorem decode_encode (nonce c : Crypto.Bytes)
    (hn : nonce.length = Crypto.NONCE_LEN) :
    Crypto.decode_data (nonce ++ c) = some (Except.ok (nonce, c)) := by
  unfold Crypto.decode_data
  have hlen : ¬ (nonce ++ c).length < Crypto.NONCE_LEN := by
    rw [List.length_append, hn]
    omega
  rw [if_neg hlen, ← hn, readNonce_append]

theorem decrypt_encrypt_ok
    (enc : Crypto.Bytes → Crypto.Bytes → Crypto.Bytes → Crypto.Bytes)
    (dec : Crypto.Bytes → Crypto.Bytes → Crypto.Bytes → Option Crypto.Bytes)
    (key nonce p : Crypto.Bytes)
    (hn : nonce.length = Crypto.NONCE_LEN)
    (hdec : dec key nonce (enc key nonce p) = some p) :
    Crypto.decrypt_data dec key (nonce ++ enc key nonce p) =
      some (Except.ok p) := by
  unfold Crypto.decrypt_data
  rw [decode_encode nonce (enc key nonce p) hn]
  show (match dec key nonce (enc key nonce p) with
    | none => some (Except.error Crypto.Error.ChaCha)
    | some plain => some (Except.ok plain)) = some (Except.ok p)
  rw [hdec]

/-! ## Claims about the crypto layer -/

/-- Claim C5: whenever the AEAD open operation inverts the seal operation on
the given key, nonce and plaintext (the round-trip property of the external
XChaCha20Poly1305 cipher), a successful `encrypt_data` followed by
`decrypt_data` under the same key returns exactly the plaintext — including
the empty plaintext, any plaintext length being allowed. -/
theorem claim_C5_roundtrip
    (enc : Crypto.Bytes → Crypto.Bytes → Crypto.Bytes → Crypto.Bytes)
    (dec : Crypto.Bytes → Crypto.Bytes → Crypto.Bytes → Option Crypto.Bytes)
    (key nonce p : Crypto.Bytes)
    (hn : nonce.length = Crypto.NONCE_LEN)
    (hdec : dec key nonce (enc key nonce p) = some p) :
    ∃ blob, Crypto.encrypt_data enc key nonce p = Except.ok blob ∧
      Crypto.decrypt_data dec key blob = some (Except.ok p) :=
  ⟨nonce ++ enc key nonce p, rfl,
    decrypt_encrypt_ok enc dec key nonce p hn hdec⟩

/-- Witness for claim C5 with a toy AEAD on the empty plaintext. -/
theorem claim_C5_roundtrip_witness :
    zeroNonce.length = Crypto.NONCE_LEN ∧
    toyDec Crypto.empty_key zeroNonce
      (toyEnc Crypto.empty_key zeroNonce []) = some [] ∧
    ∃ blob,
      Crypto.encrypt_data toyEnc Crypto.empty_key zeroNonce [] =
        Except.ok blob ∧
      Crypto.decrypt_data toyDec Crypto.empty_key blob =
        some (Except.ok []) :=
  ⟨by decide, by decide,
    claim_C5_roundtrip toyEnc toyDec Crypto.empty_key zeroNonce []
      (by decide) (by decide)⟩

/-- Counterexample to claim C6 as stated: the test plaintext
`"i am test data to encrypt and decrypt"` is 37 bytes long, not 38, so with
an AEAD whose sealed output is plaintext length + 16 (witnessed by the toy
AEAD) the blob is 24 + 37 + 16 = 77 bytes, not 78. -/
theorem claim_C6_counterexample :
    Crypto.testData.length = 37 ∧
    (toyEnc Crypto.empty_key zeroNonce Crypto.testData).length =
      Crypto.testData.length + 16 ∧
    Crypto.encrypt_data toyEnc Crypto.empty_key zeroNonce Crypto.testData =
      Except.ok
        (zeroNonce ++ toyEnc Crypto.empty_key zeroNonce Crypto.testData) ∧
    (zeroNonce ++ toyEnc Crypto.empty_key zeroNonce Crypto.testData).length =
      77 := by
  refine ⟨by decide, by decide, rfl, by decide⟩

/-- Claim C6 (amended): a successful `encrypt_data` blob is the 24-byte
nonce, then the AEAD ciphertext, then the 16-byte tag, of total length
24 + L + 16; for the zero key and the 37-byte test plaintext the blob is 77
bytes and decrypts back to the original 37 bytes. -/
theorem claim_C6_blob_layout
    (enc : Crypto.Bytes → Crypto.Bytes → Crypto.Bytes → Crypto.Bytes)
    (dec : Crypto.Bytes → Crypto.Bytes → Crypto.Bytes → Option Crypto.Bytes)
    (nonce : Crypto.Bytes)
    (hn : nonce.length = Crypto.NONCE_LEN)
    (hshape : ∀ key p, ∃ ct tag, enc key nonce p = ct ++ tag ∧
        ct.length = p.length ∧ tag.length = 16)
    (hdec : dec Crypto.empty_key nonce
        (enc Crypto.empty_key nonce Crypto.testData) =
        some Crypto.testData) :
    (∀ key p, ∃ ct tag,
        Crypto.encrypt_data enc key nonce p =
          Except.ok (nonce ++ (ct ++ tag)) ∧
        ct.length = p.length ∧ tag.length = 16 ∧
        (nonce ++ (ct ++ tag)).length = 24 + p.length + 16) ∧
    Crypto.testData.length = 37 ∧
    ∃ blob,
      Crypto.encrypt_data enc Crypto.empty_key nonce Crypto.testData =
        Except.ok blob ∧
      blob.length = 77 ∧
      Crypto.decrypt_data dec Crypto.empty_key blob =
        some (Except.ok Crypto.testData) := by
  have hgen : ∀ key p, ∃ ct tag,
      Crypto.encrypt_data enc key nonce p =
        Except.ok (nonce ++ (ct ++ tag)) ∧
      ct.length = p.length ∧ tag.length = 16 ∧
      (nonce ++ (ct ++ tag)).length = 24 + p.length + 16 := by
    intro key p
    obtain ⟨ct, tag, hct, h1, h2⟩ := hshape key p
    refine ⟨ct, tag, ?_, h1, h2, ?_⟩
    · show Crypto.encode_data nonce (enc key nonce p) = _
      rw [hct]
      rfl
    · rw [List.length_append, List.length_append, hn, h1, h2]
      simp only [Crypto.NONCE_LEN]
      omega
  refine ⟨hgen, by decide,
    nonce ++ enc Crypto.empty_key nonce Crypto.testData, rfl, ?_, ?_⟩
  · obtain ⟨ct, tag, hct, h1, h2⟩ := hshape Crypto.empty_key Crypto.testData
    rw [hct, List.length_append, List.length_append, hn, h1, h2]
    decide
  · exact decrypt_encrypt_ok enc dec Crypto.empty_key nonce Crypto.testData
      hn hdec

/-- Witness for the amended claim C6 with a toy AEAD. -/
theorem claim_C6_blob_layout_witness :
    Crypto.testData.length = 37 ∧
    ∃ blob,
      Crypto.encrypt_data toyEnc Crypto.empty_key zeroNonce Crypto.testData =
        Except.ok blob ∧
      blob.length = 77 ∧
      Crypto.decrypt_data toyDec Crypto.empty_key blob =
        some (Except.ok Crypto.testData) := by
  have h := claim_C6_blob_layout toyEnc toyDec zeroNonce (by decide)
    (fun key p => ⟨p, toyTag key zeroNonce p, rfl, rfl, by simp [toyTag]⟩)
    (by decide)
  exact ⟨h.2.1, h.2.2⟩

/-- Claim C7 (what the code actually does): on any input shorter than the
24-byte nonce length, `decrypt_data` panics — `decode_data` first evaluates
`Vec::with_capacity(data.len() - nonce.len())`, whose `usize` subtraction
underflows — instead of returning the `InvalidEncoding` error the spec
promises; that error branch is unreachable. -/
theorem claim_C7_short_input_panics
    (dec : Crypto.Bytes → Crypto.Bytes → Crypto.Bytes → Option Crypto.Bytes)
    (key data : Crypto.Bytes) (h : data.length < Crypto.NONCE_LEN) :
    Crypto.decrypt_data dec key data = none := by
  unfold Crypto.decrypt_data Crypto.decode_data
  rw [if_pos h]

/-- Witness for claim C7 at a concrete 3-byte input. -/
theorem claim_C7_short_input_panics_witness :
    ([0, 1, 2] : Crypto.Bytes).length < Crypto.NONCE_LEN ∧
    Crypto.decrypt_data toyDec Crypto.empty_key [0, 1, 2] = none :=
  ⟨by decide,
    claim_C7_short_input_panics toyDec Crypto.empty_key [0, 1, 2] (by decide)⟩

/-- Claim C8: when the AEAD rejects — under a different key, or on the blob
with one bit of its ciphertext-or-tag portion flipped (the tag-check
behaviour the spec attributes to the external XChaCha20Poly1305 cipher,
taken as hypotheses) — `decrypt_data` fails with the authentication-failure
error `Error::ChaCha` and returns no plaintext bytes. -/
theorem claim_C8_auth_failure
    (enc : Crypto.Bytes → Crypto.Bytes → Crypto.Bytes → Crypto.Bytes)
    (dec : Crypto.Bytes → Crypto.Bytes → Crypto.Bytes → Option Crypto.Bytes)
    (k k' nonce p : Crypto.Bytes) (i : Nat)
    (_hkk : k' ≠ k)
    (hn : nonce.length = Crypto.NONCE_LEN)
    (hwrong : dec k' nonce (enc k nonce p) = none)
    (hflip : dec k nonce (Crypto.flipBit (enc k nonce p) i) = none) :
    Crypto.decrypt_data dec k' (nonce ++ enc k nonce p) =
      some (Except.error Crypto.Error.ChaCha) ∧
    Crypto.decrypt_data dec k
      (nonce ++ Crypto.flipBit (enc k nonce p) i) =
      some (Except.error Crypto.Error.ChaCha) := by
  constructor
  · unfold Crypto.decrypt_data
    rw [decode_encode nonce (enc k nonce p) hn]
    show (match dec k' nonce (enc k nonce p) with
      | none => some (Except.error Crypto.Error.ChaCha)
      | some plain => some (Except.ok plain)) =
      some (Except.error Crypto.Error.ChaCha)
    rw [hwrong]
  · unfold Crypto.decrypt_data
    rw [decode_encode nonce (Crypto.flipBit (enc k nonce p) i) hn]
    show (match dec k nonce (Crypto.flipBit (enc k nonce p) i) with
      | none => some (Except.error Crypto.Error.ChaCha)
      | some plain => some (Except.ok plain)) =
      some (Except.error Crypto.Error.ChaCha)
    rw [hflip]

/-- Witness for claim C8 with a toy AEAD, a key differing in its first byte,
and a flip of the first ciphertext bit. -/
theorem claim_C8_auth_failure_witness :
    (1 :: List.replicate 31 0 : Crypto.Bytes) ≠ Crypto.empty_key ∧
    toyDec (1 :: List.replicate 31 0) zeroNonce
      (toyEnc Crypto.empty_key zeroNonce [5]) = none ∧
    Crypto.decrypt_data toyDec (1 :: List.replicate 31 0)
      (zeroNonce ++ toyEnc Crypto.empty_key zeroNonce [5]) =
      some (Except.error Crypto.Error.ChaCha) ∧
    Crypto.decrypt_data toyDec Crypto.empty_key
      (zeroNonce ++ Crypto.flipBit (toyEnc Crypto.empty_key zeroNonce [5]) 0) =
      some (Except.error Crypto.Error.ChaCha) := by
  have h := claim_C8_auth_failure toyEnc toyDec Crypto.empty_key
    (1 :: List.replicate 31 0) zeroNonce [5] 0
    (by decide) (by decide) (by decide) (by decide)
  exact ⟨by decide, by decide, h.1, h.2⟩

/-! ## The persistence round-trip -/

theorem deserialize_store4 :
    Local.deserialize store4.snapshot.1 store4.snapshot.2 = store4 := by
  decide

/-- Claim C9: the store built by four `update` calls with values 10, 1, 2, 4
(versions 1..4, `count() = 4`) survives a save / load round-trip identically
through each of the three adapters — PlainBinary, PlainJSON and Encrypted —
whenever the respective codec inverts itself on the store's snapshot and (for
Encrypted) the AEAD open operation inverts the seal operation (properties of
the external bincode / serde_json / chacha20poly1305 crates, taken as
hypotheses). -/
theorem claim_C9_adapter_roundtrip
    (serB serJ : Nat × List (Nat × Nat) → Crypto.Bytes)
    (deB deJ : Crypto.Bytes → Option (Nat × List (Nat × Nat)))
    (enc : Crypto.Bytes → Crypto.Bytes → Crypto.Bytes → Crypto.Bytes)
    (dec : Crypto.Bytes → Crypto.Bytes → Crypto.Bytes → Option Crypto.Bytes)
    (key nonce : Crypto.Bytes)
    (hB : deB (serB store4.snapshot) = some store4.snapshot)
    (hJ : deJ (serJ store4.snapshot) = some store4.snapshot)
    (hn : nonce.length = Crypto.NONCE_LEN)
    (hAead : dec key nonce (enc key nonce (serB store4.snapshot)) =
        some (serB store4.snapshot)) :
    store4.count = 4 ∧
    Fs.Binary.load deB (Fs.Binary.save serB store4) = some store4 ∧
    Fs.Json.load deJ (Fs.Json.save serJ store4) = some store4 ∧
    ∃ blob,
      Fs.Encrypted.save serB enc key nonce store4 = Except.ok blob ∧
      Fs.Encrypted.load deB dec key blob = some store4 := by
  refine ⟨rfl, ?_, ?_, ?_⟩
  · unfold Fs.Binary.load Fs.Binary.save
    rw [hB]
    exact congrArg some deserialize_store4
  · unfold Fs.Json.load Fs.Json.save
    rw [hJ]
    exact congrArg some deserialize_store4
  · refine ⟨nonce ++ enc key nonce (serB store4.snapshot), rfl, ?_⟩
    unfold Fs.Encrypted.load
    rw [decrypt_encrypt_ok enc dec key nonce (serB store4.snapshot) hn hAead]
    show (deB (serB store4.snapshot)).map
      (fun snap => Local.deserialize snap.1 snap.2) = some store4
    rw [hB]
    exact congrArg some deserialize_store4

/-- Witness for claim C9 with toy codecs and a toy AEAD. -/
theorem claim_C9_adapter_roundtrip_witness :
    toyDe (toySer store4.snapshot) = some store4.snapshot ∧
    store4.count = 4 ∧
    Fs.Binary.load toyDe (Fs.Binary.save toySer store4) = some store4 ∧
    Fs.Json.load toyDe (Fs.Json.save toySer store4) = some store4 ∧
    ∃ blob,
      Fs.Encrypted.save toySer toyEnc Crypto.empty_key zeroNonce store4 =
        Except.ok blob ∧
      Fs.Encrypted.load toyDe toyDec Crypto.empty_key blob = some store4 := by
  have h := claim_C9_adapter_roundtrip toySer toySer toyDe toyDe toyEnc toyDec
    Crypto.empty_key zeroNonce (by decide) (by decide) (by decide) (by decide)
  exact ⟨by decide, h.1, h.2.1, h.2.2.1, h.2.2.2⟩

end RustKms
